import Mathlib

/-!
A shallow embedding of `src/taskwait/__init__.py` (the `taskwait` python
package): the wait/poll state machine, the pacing function `_delay`, the
log-tailing function `_show_new_log`, and the progress display, together
with theorems about them.

External effects are made explicit:
* calls to `task.status()`, `task.log()`, `task.has_log()` and
  `time.time()` are modelled by oracles indexed by the number of calls
  made so far (the state records those counters);
* `print` and `time.sleep` are modelled by an output event list;
* a raised `TimeoutError` is modelled by `Except`;
* the unbounded `while` loops are modelled with a fuel parameter, the
  runner returning `none` when fuel runs out.
-/

namespace Taskwait

/-- Wall-clock instants and durations (python seconds-since-epoch floats),
modelled as integers: the code uses only `+`, `-` and `<` on times, which
the integer model mirrors formula-for-formula (float rounding is not
modelled). -/
abbrev Time := ℤ

/-- The python exception raised by `_delay` when past the deadline. -/
structure TimeoutError where
deriving DecidableEq

/-- One observable output effect of the wait engine. -/
inductive Out where
  | progressStart (label : String)
  | progressTick
  | progressEnd (label : String)
  | logChunk (lines : List String)
  | sleep (d : Time)
deriving DecidableEq

/-- The `Result` dataclass: final status plus start/end wall-clock times. -/
structure Result where
  status : String
  start : Time
  «end» : Time
deriving DecidableEq

/-- The `Task` abstract base class, as a deterministic oracle: the `i`-th
call to `status()` returns `statusSeq i`, the `i`-th call to `log()`
returns `logSeq i`, the `i`-th call to `has_log()` returns `hasLogSeq i`.
The python `set[str]` attributes are modelled as lists, used only for
membership. -/
structure Task where
  status_waiting : List String
  status_running : List String
  statusSeq : ℕ → String
  logSeq : ℕ → Option (List String)
  hasLogSeq : ℕ → Bool

/-- `_show_new_log(skip, value)`: returns the new skip together with the
chunk of lines printed (empty chunk = nothing printed).  The python guard
`if not value or len(value) <= skip` collapses to the length test, since
an empty or absent list always has length `≤ skip`. -/
def _show_new_log (skip : ℕ) (value : Option (List String)) : ℕ × List String :=
  match value with
  | none => (skip, [])
  | some v => if v.length ≤ skip then (skip, []) else (v.length, v.drop skip)

/-- The comparison `now > end` of `_delay`, where `end` is `math.inf`
(modelled by `none`) when no timeout was configured. -/
def timeExceeded (now : Time) (timeEnd : Option Time) : Bool :=
  match timeEnd with
  | none => false
  | some e => decide (e < now)

/-- `_delay(prev, poll, end)` at a call where `time.time()` returns `now`:
either raises `TimeoutError`, or returns the value `now` recorded as the
new last-poll time together with the duration passed to `time.sleep`
(`none` when no sleep happens). -/
def _delay (prev : Option Time) (poll : Time) (timeEnd : Option Time) (now : Time) :
    Except TimeoutError (Time × Option Time) :=
  match prev with
  | none => .ok (now, none)
  | some p =>
    if timeExceeded now timeEnd then .error ⟨⟩
    else if 0 < poll - (now - p) then .ok (now, some (poll - (now - p)))
    else .ok (now, none)

/-- The keyword options of `taskwait`, with the python default values. -/
structure Options where
  show_log : Bool := true
  progress : Bool := true
  poll : Time := 1
  timeout : Option Time := none

/-- The immutable part of a `_RunningTask` after `__init__`: the task,
the effective `_show_log` and `_progress` flags, `_poll`, `_t0`,
`_time_end`, and the clock oracle. -/
structure Sess where
  task : Task
  show_log : Bool
  progress : Bool
  poll : Time
  t0 : Time
  time_end : Option Time
  time : ℕ → Time

/-- The mutable part of a `_RunningTask`, plus the oracle call counters
(`sc`/`lc`/`tc`/`hc` count `status()`/`log()`/`time.time()`/`has_log()`
calls made) and the output produced so far. -/
structure St where
  sc : ℕ
  lc : ℕ
  tc : ℕ
  hc : ℕ
  skip : ℕ
  last_time : Option Time
  status : String
  out : List Out
deriving DecidableEq

/-- `_RunningTask.__init__`: note that `show_log and task.has_log()`
short-circuits, so `has_log()` is only called when the `show_log` option
is true; `time.time()` is called a second time only when a timeout is
configured. -/
def initSession (task : Task) (opts : Options) (time : ℕ → Time) : Sess × St :=
  let sl := if opts.show_log then (task.hasLogSeq 0, 1) else (false, 0)
  let progress := opts.progress && !sl.1
  let t0 := time 0
  let status := task.statusSeq 0
  let te := match opts.timeout with
    | none => ((none : Option Time), 1)
    | some dt => (some (time 1 + dt), 2)
  (⟨task, sl.1, progress, opts.poll, t0, te.1, time⟩,
   ⟨1, 0, te.2, sl.2, 0, none, status, []⟩)

/-- Append one output event. -/
def emit (s : St) (o : Out) : St := {s with out := s.out ++ [o]}

/-- The guarded print of `_very_simple_progress`: emit the event only when
the display flag is set. -/
def progressIf (display : Bool) (s : St) (o : Out) : St :=
  if display then emit s o else s

/-- `_RunningTask._task_status`: one `time.time()` call, then `_delay`
(possibly raising, possibly sleeping), then one `status()` call. -/
def _task_status (c : Sess) (s : St) : Except TimeoutError String × St :=
  let now := c.time s.tc
  let s1 := {s with tc := s.tc + 1}
  match _delay s.last_time c.poll c.time_end now with
  | .error e => (.error e, s1)
  | .ok (ret, slp) =>
    let s2 := match slp with
      | some d => emit s1 (.sleep d)
      | none => s1
    let s3 := {s2 with last_time := some ret}
    (.ok (c.task.statusSeq s3.sc), {s3 with sc := s3.sc + 1})

/-- `_RunningTask._show_new_log`: when the effective `_show_log` flag is
set, fetch the log and tail it; the chunk is printed only when nonempty
(the python `print` happens exactly in the branch where it is). -/
def _show_new_log_step (c : Sess) (s : St) : St :=
  if c.show_log then
    let r := _show_new_log s.skip (c.task.logSeq s.lc)
    let s1 := {s with lc := s.lc + 1, skip := r.1}
    if r.2 = [] then s1 else emit s1 (.logChunk r.2)
  else s

/-- The `while self._status in self._task.status_waiting` loop of
`_wait_to_start`, with fuel. -/
def runW (c : Sess) : ℕ → St → Option (Except TimeoutError Unit × St)
  | 0, _ => none
  | fuel + 1, s =>
    if s.status ∈ c.task.status_waiting then
      match _task_status c (progressIf (c.show_log || c.progress) s .progressTick) with
      | (.error e, s2) => some (.error e, s2)
      | (.ok st, s2) => runW c fuel {s2 with status := st}
    else some (.ok (), s)

/-- `_RunningTask._wait_to_start`: display is `show_log or progress`; the
"OK" completion label is printed by the context manager `finally` block on
both the normal and the raising path. -/
def _wait_to_start (c : Sess) (fuel : ℕ) (s : St) :
    Option (Except TimeoutError Unit × St) :=
  match runW c fuel (progressIf (c.show_log || c.progress) s (.progressStart "Waiting")) with
  | none => none
  | some (r, s1) =>
      some (r, progressIf (c.show_log || c.progress) s1 (.progressEnd "OK"))

/-- The `while self._status in self._task.status_running` loop of
`_wait_to_finish`, with fuel. -/
def runR (c : Sess) : ℕ → St → Option (Except TimeoutError Unit × St)
  | 0, _ => none
  | fuel + 1, s =>
    if s.status ∈ c.task.status_running then
      match _task_status c (_show_new_log_step c (progressIf c.progress s .progressTick)) with
      | (.error e, s2) => some (.error e, s2)
      | (.ok st, s2) => runR c fuel {s2 with status := st}
    else some (.ok (), s)

/-- `_RunningTask._wait_to_finish`: progress display only if the effective
`_progress` flag is set; the final `_show_new_log` flush runs only on the
normal (non-raising) path, after the context manager has closed. -/
def _wait_to_finish (c : Sess) (fuel : ℕ) (s : St) :
    Option (Except TimeoutError Unit × St) :=
  match runR c fuel (progressIf c.progress s (.progressStart "Running")) with
  | none => none
  | some (.error e, s1) =>
      some (.error e, progressIf c.progress s1 (.progressEnd "OK"))
  | some (.ok _, s1) =>
      some (.ok (), _show_new_log_step c (progressIf c.progress s1 (.progressEnd "OK")))

/-- `_RunningTask.wait`: both phases, then `Result(status, t0, time.time())`. -/
def wait (c : Sess) (fuel : ℕ) (s : St) :
    Option (Except TimeoutError Result × St) :=
  match _wait_to_start c fuel s with
  | none => none
  | some (.error e, s1) => some (.error e, s1)
  | some (.ok _, s1) =>
    match _wait_to_finish c fuel s1 with
    | none => none
    | some (.error e, s2) => some (.error e, s2)
    | some (.ok _, s2) =>
      some (.ok ⟨s2.status, c.t0, c.time s2.tc⟩, {s2 with tc := s2.tc + 1})

/-- The entry point `taskwait(task, ...)`. -/
def taskwait (task : Task) (opts : Options) (time : ℕ → Time) (fuel : ℕ) :
    Option (Except TimeoutError Result × St) :=
  let p := initSession task opts time
  wait p.1 fuel p.2

/-- The returned value (or raised error) of a run. -/
def resultOf (x : Option (Except TimeoutError Result × St)) :
    Option (Except TimeoutError Result) := x.map Prod.fst

/-- The final engine state of a run. -/
def stateOf (x : Option (Except TimeoutError Result × St)) : Option St := x.map Prod.snd

/-- The log chunk carried by an output event, if any. -/
def logChunkOf : Out → Option (List String)
  | .logChunk ls => some ls
  | _ => none

/-- Whether an output event belongs to the progress indicator. -/
def isProgress : Out → Bool
  | .progressStart _ => true
  | .progressTick => true
  | .progressEnd _ => true
  | _ => false

/-- All log lines emitted, in order, across an output event list. -/
def outLogLines (out : List Out) : List String := (out.filterMap logChunkOf).flatten

/-- `ListExt l l'` means `l'` extends `l`: `l` is an initial segment of `l'`. -/
def ListExt (l l' : List String) : Prop := ∃ t, l ++ t = l'

/-- The log-tailing invariant of a wait session against a log-content
function `L` (the `i`-th `log()` call returns `some (L i)`): `skip` counts
exactly the lines emitted so far, and the emitted lines form an initial
segment of the next log value to be fetched. -/
def LogInv (L : ℕ → List String) (s : St) : Prop :=
  s.skip = (outLogLines s.out).length ∧ ListExt (outLogLines s.out) (L s.lc)

/-! Concrete instances, mirroring `tests/test_taskwait.py`. -/

/-- Log contents of the example task: the `i`-th `log()` call returns the
first `i + 1` entries (one new line per call), as in the repo test. -/
def exL (i : ℕ) : List String :=
  (["Log entry 1", "Log entry 2", "Log entry 3", "Log entry 4", "Log entry 5"]).take (i + 1)

/-- The example task of the repo tests with `show_logs=True`. -/
def exTask : Task where
  status_waiting := ["created", "submitted"]
  status_running := ["running", "finishing"]
  statusSeq := fun i => (["created", "submitted", "running", "finishing", "done"]).getD i "done"
  logSeq := fun i => some (exL i)
  hasLogSeq := fun _ => true

/-- A constant clock (with `poll = 0` its value is irrelevant). -/
def exTime : ℕ → Time := fun _ => 0

/-- The options used by the repo tests: defaults except `poll=0`. -/
def exOpts : Options := { poll := 0 }

/-- The output of the example run: progress display during the waiting
phase (log display does not suppress it there), then one log chunk per
running-phase poll plus the final flush. -/
def exRunOut : List Out :=
  [.progressStart "Waiting", .progressTick, .progressTick, .progressEnd "OK",
   .logChunk ["Log entry 1"], .logChunk ["Log entry 2"], .logChunk ["Log entry 3"]]

/-- The final engine state of the example run. -/
def exFinalSt : St := ⟨5, 3, 6, 1, 3, some 0, "done", exRunOut⟩

/-- A task whose status regresses from running back into the waiting set. -/
def regTask : Task where
  status_waiting := ["created", "submitted"]
  status_running := ["running", "finishing"]
  statusSeq := fun i => (["running", "created", "done"]).getD i "done"
  logSeq := fun _ => none
  hasLogSeq := fun _ => false

/-- A task that reports "running" forever, used with a timeout. -/
def toTask : Task where
  status_waiting := ["waiting"]
  status_running := ["running"]
  statusSeq := fun _ => "running"
  logSeq := fun _ => none
  hasLogSeq := fun _ => false

/-- A clock advancing one second per `time.time()` call. -/
def toTime : ℕ → Time := fun i => i

/-- Options with `poll=0` and `timeout=0`: the deadline is already past at
the second paced call. -/
def toOpts : Options := { poll := 0, timeout := some 0 }

/-! Basic facts about `ListExt` and `outLogLines`. -/

lemma listExt_rfl (l : List String) : ListExt l l := ⟨[], by simp⟩

lemma listExt_nil (l : List String) : ListExt [] l := ⟨l, rfl⟩

lemma ListExt.length_le {l l' : List String} (h : ListExt l l') : l.length ≤ l'.length := by
  obtain ⟨t, rfl⟩ := h
  simp

lemma ListExt.eq_of_le {l l' : List String} (h : ListExt l l') (hlen : l'.length ≤ l.length) :
    l = l' := by
  obtain ⟨t, rfl⟩ := h
  simp only [List.length_append] at hlen
  have : t = [] := List.eq_nil_of_length_eq_zero (by omega)
  simp [this]

lemma ListExt.append_drop {l l' : List String} (h : ListExt l l') :
    l ++ l'.drop l.length = l' := by
  obtain ⟨t, rfl⟩ := h
  rw [List.drop_left]

@[simp] lemma outLogLines_nil : outLogLines [] = [] := rfl

lemma outLogLines_append (a b : List Out) :
    outLogLines (a ++ b) = outLogLines a ++ outLogLines b := by
  simp [outLogLines, List.filterMap_append]

lemma outLogLines_quiet {ex : List Out} (h : ∀ o ∈ ex, logChunkOf o = none) :
    outLogLines ex = [] := by
  induction ex with
  | nil => rfl
  | cons o t ih =>
    have ho := h o (by simp)
    have ht : outLogLines t = [] := ih fun o' ho' => h o' (by simp [ho'])
    simp [outLogLines, List.filterMap_cons, ho] at *
    exact ht

lemma logInv_transport {L : ℕ → List String} {s s' : St} (h1 : s'.skip = s.skip)
    (h2 : s'.lc = s.lc) (h3 : outLogLines s'.out = outLogLines s.out) :
    LogInv L s → LogInv L s' := by
  intro ⟨ha, hb⟩
  exact ⟨by rw [h1, h3, ha], by rw [h3, h2]; exact hb⟩

/-! Small-step facts about the state operations. -/

@[simp] lemma emit_sc (s : St) (o : Out) : (emit s o).sc = s.sc := rfl
@[simp] lemma emit_lc (s : St) (o : Out) : (emit s o).lc = s.lc := rfl
@[simp] lemma emit_tc (s : St) (o : Out) : (emit s o).tc = s.tc := rfl
@[simp] lemma emit_hc (s : St) (o : Out) : (emit s o).hc = s.hc := rfl
@[simp] lemma emit_skip (s : St) (o : Out) : (emit s o).skip = s.skip := rfl
@[simp] lemma emit_last_time (s : St) (o : Out) : (emit s o).last_time = s.last_time := rfl
@[simp] lemma emit_status (s : St) (o : Out) : (emit s o).status = s.status := rfl
@[simp] lemma emit_out (s : St) (o : Out) : (emit s o).out = s.out ++ [o] := rfl

@[simp] lemma progressIf_sc (d : Bool) (s : St) (o : Out) : (progressIf d s o).sc = s.sc := by
  cases d <;> simp [progressIf]

@[simp] lemma progressIf_lc (d : Bool) (s : St) (o : Out) : (progressIf d s o).lc = s.lc := by
  cases d <;> simp [progressIf]

@[simp] lemma progressIf_skip (d : Bool) (s : St) (o : Out) :
    (progressIf d s o).skip = s.skip := by
  cases d <;> simp [progressIf]

@[simp] lemma progressIf_last_time (d : Bool) (s : St) (o : Out) :
    (progressIf d s o).last_time = s.last_time := by
  cases d <;> simp [progressIf]

@[simp] lemma progressIf_status (d : Bool) (s : St) (o : Out) :
    (progressIf d s o).status = s.status := by
  cases d <;> simp [progressIf]

lemma progressIf_out (d : Bool) (s : St) (o : Out) :
    (progressIf d s o).out = s.out ++ (if d then [o] else []) := by
  cases d <;> simp [progressIf]

lemma outLogLines_progressIf (d : Bool) (s : St) (o : Out) (h : logChunkOf o = none) :
    outLogLines (progressIf d s o).out = outLogLines s.out := by
  rw [progressIf_out, outLogLines_append]
  cases d <;> simp [outLogLines, List.filterMap_cons, h]

/-! Case lemmas for `_delay`. -/

lemma timeExceeded_none (now : Time) : timeExceeded now none = false := rfl

lemma timeExceeded_eq_false {now : Time} {tEnd : Option Time}
    (h : ∀ e, tEnd = some e → now ≤ e) : timeExceeded now tEnd = false := by
  cases tEnd with
  | none => rfl
  | some e => simp [timeExceeded, not_lt.mpr (h e rfl)]

lemma delay_first (poll : Time) (tEnd : Option Time) (now : Time) :
    _delay none poll tEnd now = .ok (now, none) := rfl

lemma delay_timeout {p poll : Time} {tEnd : Option Time} {now : Time}
    (h : timeExceeded now tEnd = true) :
    _delay (some p) poll tEnd now = .error ⟨⟩ := by
  simp [_delay, h]

lemma delay_sleep {p poll : Time} {tEnd : Option Time} {now : Time}
    (h : timeExceeded now tEnd = false) (hw : 0 < poll - (now - p)) :
    _delay (some p) poll tEnd now = .ok (now, some (poll - (now - p))) := by
  simp [_delay, h, hw]

lemma delay_no_sleep {p poll : Time} {tEnd : Option Time} {now : Time}
    (h : timeExceeded now tEnd = false) (hw : poll - (now - p) ≤ 0) :
    _delay (some p) poll tEnd now = .ok (now, none) := by
  simp [_delay, h, not_lt.mpr hw]

/-- When no timeout is configured `_delay` always succeeds, returning the
sampled time and sleeping or not depending on the remaining interval. -/
lemma delay_ok_of_no_end (prev : Option Time) (poll now : Time) :
    ∃ slp, _delay prev poll none now = .ok (now, slp) := by
  cases prev with
  | none => exact ⟨none, rfl⟩
  | some p =>
    by_cases hw : 0 < poll - (now - p)
    · exact ⟨some (poll - (now - p)), delay_sleep rfl hw⟩
    · exact ⟨none, delay_no_sleep rfl (not_lt.mp hw)⟩

/-! Characterization of `_task_status`. -/

/-- Whatever `_task_status` does, it leaves `lc`, `skip` and `status`
untouched and appends only non-log, non-progress events (a possible sleep). -/
lemma task_status_fields (c : Sess) (s : St) (r : Except TimeoutError String) (s' : St)
    (h : _task_status c s = (r, s')) :
    s'.lc = s.lc ∧ s'.skip = s.skip ∧ s'.status = s.status ∧
      ∃ ex, s'.out = s.out ++ ex ∧
        ∀ o ∈ ex, logChunkOf o = none ∧ isProgress o = false := by
  rcases hd : _delay s.last_time c.poll c.time_end (c.time s.tc) with e | ⟨ret, slp⟩
  · simp only [_task_status, hd, Prod.mk.injEq] at h
    obtain ⟨rfl, rfl⟩ := h
    exact ⟨rfl, rfl, rfl, [], by simp, by simp⟩
  · cases slp with
    | none =>
      simp only [_task_status, hd, Prod.mk.injEq] at h
      obtain ⟨rfl, rfl⟩ := h
      exact ⟨rfl, rfl, rfl, [], by simp, by simp⟩
    | some d =>
      simp only [_task_status, hd, Prod.mk.injEq] at h
      obtain ⟨rfl, rfl⟩ := h
      exact ⟨rfl, rfl, rfl, [.sleep d], by simp [emit], by simp [logChunkOf, isProgress]⟩

/-- When no timeout is configured, `_task_status` returns the next status
from the oracle and bumps the status-call counter. -/
lemma task_status_no_end (c : Sess) (s : St) (hend : c.time_end = none) :
    ∃ s', _task_status c s = (.ok (c.task.statusSeq s.sc), s') ∧ s'.sc = s.sc + 1 := by
  obtain ⟨slp, hd⟩ := delay_ok_of_no_end s.last_time c.poll (c.time s.tc)
  rw [← hend] at hd
  cases slp with
  | none =>
    refine ⟨⟨s.sc + 1, s.lc, s.tc + 1, s.hc, s.skip, some (c.time s.tc), s.status, s.out⟩,
      ?_, rfl⟩
    simp only [_task_status, hd]
  | some d =>
    refine ⟨⟨s.sc + 1, s.lc, s.tc + 1, s.hc, s.skip, some (c.time s.tc), s.status,
      s.out ++ [.sleep d]⟩, ?_, rfl⟩
    simp only [_task_status, hd, emit]

/-! Characterization of `_show_new_log_step`. -/

lemma step_fields (c : Sess) (s : St) :
    (_show_new_log_step c s).sc = s.sc ∧ (_show_new_log_step c s).status = s.status ∧
      (_show_new_log_step c s).last_time = s.last_time ∧ (_show_new_log_step c s).tc = s.tc ∧
      ∃ ex, (_show_new_log_step c s).out = s.out ++ ex ∧ ∀ o ∈ ex, isProgress o = false := by
  unfold _show_new_log_step
  by_cases hs : c.show_log = true
  · rw [if_pos hs]
    by_cases hr : (_show_new_log s.skip (c.task.logSeq s.lc)).2 = []
    · rw [if_pos hr]
      exact ⟨rfl, rfl, rfl, rfl, [], by simp, by simp⟩
    · rw [if_neg hr]
      exact ⟨rfl, rfl, rfl, rfl, [.logChunk (_show_new_log s.skip (c.task.logSeq s.lc)).2],
        by simp [emit], by simp [isProgress]⟩
  · rw [if_neg hs]
    exact ⟨rfl, rfl, rfl, rfl, [], by simp, by simp⟩

/-- The log-tailing invariant is preserved by one tail step; when log
display is active the step leaves the emitted lines equal to the log value
just fetched, and bumps the log-call counter. -/
lemma step_logInv (c : Sess) (L : ℕ → List String)
    (hlog : ∀ i, c.task.logSeq i = some (L i))
    (hmono : ∀ i, ListExt (L i) (L (i + 1))) (s : St) (h : LogInv L s) :
    LogInv L (_show_new_log_step c s) ∧
      (c.show_log = true →
        outLogLines (_show_new_log_step c s).out = L s.lc ∧
          (_show_new_log_step c s).lc = s.lc + 1) := by
  obtain ⟨hskip, hext⟩ := h
  unfold _show_new_log_step
  by_cases hs : c.show_log = true
  · rw [if_pos hs]
    rw [hlog s.lc]
    by_cases hlen : (L s.lc).length ≤ s.skip
    · have hr : _show_new_log s.skip (some (L s.lc)) = (s.skip, []) := by
        simp [_show_new_log, hlen]
      rw [hr]
      have heq : outLogLines s.out = L s.lc := hext.eq_of_le (by omega)
      simp only [if_pos rfl]
      refine ⟨⟨hskip, ?_⟩, fun _ => ⟨heq, rfl⟩⟩
      show ListExt (outLogLines s.out) (L (s.lc + 1))
      rw [heq]
      exact hmono s.lc
    · push_neg at hlen
      have hr : _show_new_log s.skip (some (L s.lc)) = ((L s.lc).length, (L s.lc).drop s.skip) := by
        simp [_show_new_log, not_le.mpr hlen]
      rw [hr]
      have hne : (L s.lc).drop s.skip ≠ [] := by
        have : 0 < ((L s.lc).drop s.skip).length := by
          rw [List.length_drop]; omega
        exact List.ne_nil_of_length_pos this
      rw [if_neg hne]
      have hfull : outLogLines s.out ++ (L s.lc).drop s.skip = L s.lc := by
        have := hext.append_drop
        rwa [← hskip] at this
      have hout : outLogLines (s.out ++ [Out.logChunk ((L s.lc).drop s.skip)]) = L s.lc := by
        rw [outLogLines_append]
        simpa [outLogLines, List.filterMap_cons, logChunkOf] using hfull
      constructor
      · constructor
        · show (L s.lc).length = (outLogLines (s.out ++ [Out.logChunk ((L s.lc).drop s.skip)])).length
          rw [hout]
        · show ListExt (outLogLines (s.out ++ [Out.logChunk ((L s.lc).drop s.skip)])) (L (s.lc + 1))
          rw [hout]
          exact hmono s.lc
      · intro _
        exact ⟨hout, rfl⟩
  · rw [if_neg hs]
    exact ⟨⟨hskip, hext⟩, fun hc => absurd hc hs⟩

/-! Loop-level lemmas. -/

lemma progFree_append {a b : List Out} (ha : ∀ o ∈ a, isProgress o = false)
    (hb : ∀ o ∈ b, isProgress o = false) : ∀ o ∈ a ++ b, isProgress o = false := by
  intro o ho
  rcases List.mem_append.mp ho with h | h
  exacts [ha o h, hb o h]

lemma progressIf_false (s : St) (o : Out) : progressIf false s o = s := by
  simp [progressIf]

/-- The waiting loop never touches the log state: it changes neither `lc`
nor `skip`, and emits no log lines. -/
lemma runW_pres (c : Sess) :
    ∀ fuel s r s', runW c fuel s = some (r, s') →
      s'.lc = s.lc ∧ s'.skip = s.skip ∧ outLogLines s'.out = outLogLines s.out := by
  intro fuel
  induction fuel with
  | zero => intro s r s' h; simp [runW] at h
  | succ n ih =>
    intro s r s' h
    rw [runW] at h
    by_cases hw : s.status ∈ c.task.status_waiting
    · rw [if_pos hw] at h
      rcases hts : _task_status c (progressIf (c.show_log || c.progress) s .progressTick)
        with ⟨r1, s2⟩
      rw [hts] at h
      obtain ⟨hlc, hskip, _, ex, hout, hex⟩ := task_status_fields _ _ _ _ hts
      have hlog2 : outLogLines s2.out = outLogLines s.out := by
        rw [hout, outLogLines_append, outLogLines_quiet (fun o ho => (hex o ho).1),
          List.append_nil, outLogLines_progressIf _ _ Out.progressTick rfl]
      have hlc2 : s2.lc = s.lc := by rw [hlc, progressIf_lc]
      have hskip2 : s2.skip = s.skip := by rw [hskip, progressIf_skip]
      cases r1 with
      | error e =>
        simp only [Option.some.injEq, Prod.mk.injEq] at h
        obtain ⟨_, rfl⟩ := h
        exact ⟨hlc2, hskip2, hlog2⟩
      | ok st =>
        obtain ⟨h1, h2, h3⟩ := ih _ _ _ h
        exact ⟨by rw [h1]; exact hlc2, by rw [h2]; exact hskip2, by rw [h3]; exact hlog2⟩
    · rw [if_neg hw] at h
      simp only [Option.some.injEq, Prod.mk.injEq] at h
      obtain ⟨_, rfl⟩ := h
      exact ⟨rfl, rfl, rfl⟩

/-- The running loop preserves the log-tailing invariant. -/
lemma runR_logInv (c : Sess) (L : ℕ → List String)
    (hlog : ∀ i, c.task.logSeq i = some (L i))
    (hmono : ∀ i, ListExt (L i) (L (i + 1))) :
    ∀ fuel s r s', runR c fuel s = some (r, s') → LogInv L s → LogInv L s' := by
  intro fuel
  induction fuel with
  | zero => intro s r s' h _; simp [runR] at h
  | succ n ih =>
    intro s r s' h hinv
    rw [runR] at h
    by_cases hw : s.status ∈ c.task.status_running
    · rw [if_pos hw] at h
      have hinv1 : LogInv L (progressIf c.progress s .progressTick) :=
        logInv_transport (by simp) (by simp) (outLogLines_progressIf _ _ Out.progressTick rfl) hinv
      have hinv2 : LogInv L (_show_new_log_step c (progressIf c.progress s .progressTick)) :=
        (step_logInv c L hlog hmono _ hinv1).1
      rcases hts : _task_status c (_show_new_log_step c (progressIf c.progress s .progressTick))
        with ⟨r1, s2⟩
      rw [hts] at h
      obtain ⟨hlc, hskip, _, ex, hout, hex⟩ := task_status_fields _ _ _ _ hts
      have hinv3 : LogInv L s2 := logInv_transport hskip hlc
        (by rw [hout, outLogLines_append, outLogLines_quiet (fun o ho => (hex o ho).1),
          List.append_nil]) hinv2
      cases r1 with
      | error e =>
        simp only [Option.some.injEq, Prod.mk.injEq] at h
        obtain ⟨_, rfl⟩ := h
        exact hinv3
      | ok st =>
        exact ih _ _ _ h (logInv_transport rfl rfl rfl hinv3)
    · rw [if_neg hw] at h
      simp only [Option.some.injEq, Prod.mk.injEq] at h
      obtain ⟨_, rfl⟩ := h
      exact hinv

/-- With the effective progress flag off, the running loop emits no
progress events. -/
lemma runR_progFree (c : Sess) (hp : c.progress = false) :
    ∀ fuel s r s', runR c fuel s = some (r, s') →
      ∃ ex, s'.out = s.out ++ ex ∧ ∀ o ∈ ex, isProgress o = false := by
  intro fuel
  induction fuel with
  | zero => intro s r s' h; simp [runR] at h
  | succ n ih =>
    intro s r s' h
    rw [runR] at h
    by_cases hw : s.status ∈ c.task.status_running
    · rw [if_pos hw] at h
      rw [hp, progressIf_false] at h
      obtain ⟨_, _, _, _, ex1, hout1, hex1⟩ := step_fields c s
      rcases hts : _task_status c (_show_new_log_step c s) with ⟨r1, s2⟩
      rw [hts] at h
      obtain ⟨_, _, _, ex2, hout2, hex2⟩ := task_status_fields _ _ _ _ hts
      have hout12 : s2.out = s.out ++ (ex1 ++ ex2) := by
        rw [hout2, hout1, List.append_assoc]
      have hex12 : ∀ o ∈ ex1 ++ ex2, isProgress o = false :=
        progFree_append hex1 fun o ho => (hex2 o ho).2
      cases r1 with
      | error e =>
        simp only [Option.some.injEq, Prod.mk.injEq] at h
        obtain ⟨_, rfl⟩ := h
        exact ⟨ex1 ++ ex2, hout12, hex12⟩
      | ok st =>
        obtain ⟨ex3, hout3, hex3⟩ := ih _ _ _ h
        refine ⟨ex1 ++ ex2 ++ ex3, ?_, progFree_append hex12 hex3⟩
        rw [hout3]
        show s2.out ++ ex3 = _
        rw [hout12, List.append_assoc]
    · rw [if_neg hw] at h
      simp only [Option.some.injEq, Prod.mk.injEq] at h
      obtain ⟨_, rfl⟩ := h
      exact ⟨[], by simp, by simp⟩

/-- The waiting loop exits at the first status outside `status_waiting`:
if statuses `j, …, k-1` are waiting and status `k` is not, it stops having
made exactly `k + 1` status calls in total, holding status `k`. -/
lemma runW_exit (c : Sess) (hend : c.time_end = none) :
    ∀ fuel j s, s.sc = j + 1 → s.status = c.task.statusSeq j →
      ∀ k, j ≤ k → (∀ i, j ≤ i → i < k → c.task.statusSeq i ∈ c.task.status_waiting) →
      c.task.statusSeq k ∉ c.task.status_waiting → k - j < fuel →
      ∃ s', runW c fuel s = some (.ok (), s') ∧ s'.sc = k + 1 ∧
        s'.status = c.task.statusSeq k := by
  intro fuel
  induction fuel with
  | zero => intro j s _ _ k _ _ _ hf; omega
  | succ n ih =>
    intro j s hsc hst k hjk hmem hterm hf
    rw [runW]
    rcases eq_or_lt_of_le hjk with rfl | hlt
    · rw [hst, if_neg hterm]
      exact ⟨s, rfl, hsc, hst⟩
    · have hjW : c.task.statusSeq j ∈ c.task.status_waiting := hmem j le_rfl hlt
      rw [hst, if_pos hjW]
      have htsc : (progressIf (c.show_log || c.progress) s Out.progressTick).sc = j + 1 := by
        rw [progressIf_sc, hsc]
      obtain ⟨s2, hts, hsc2⟩ :=
        task_status_no_end c (progressIf (c.show_log || c.progress) s .progressTick) hend
      rw [htsc] at hts hsc2
      rw [hts]
      obtain ⟨s', hrun, hsc', hst'⟩ := ih (j + 1) {s2 with status := c.task.statusSeq (j + 1)}
        hsc2 rfl k hlt (fun i h1 h2 => hmem i (by omega) h2) hterm (by omega)
      exact ⟨s', hrun, hsc', hst'⟩

/-- The running loop exits at the first status outside `status_running`,
analogously to `runW_exit`. -/
lemma runR_exit (c : Sess) (hend : c.time_end = none) :
    ∀ fuel j s, s.sc = j + 1 → s.status = c.task.statusSeq j →
      ∀ k, j ≤ k → (∀ i, j ≤ i → i < k → c.task.statusSeq i ∈ c.task.status_running) →
      c.task.statusSeq k ∉ c.task.status_running → k - j < fuel →
      ∃ s', runR c fuel s = some (.ok (), s') ∧ s'.sc = k + 1 ∧
        s'.status = c.task.statusSeq k := by
  intro fuel
  induction fuel with
  | zero => intro j s _ _ k _ _ _ hf; omega
  | succ n ih =>
    intro j s hsc hst k hjk hmem hterm hf
    rw [runR]
    rcases eq_or_lt_of_le hjk with rfl | hlt
    · rw [hst, if_neg hterm]
      exact ⟨s, rfl, hsc, hst⟩
    · have hjR : c.task.statusSeq j ∈ c.task.status_running := hmem j le_rfl hlt
      rw [hst, if_pos hjR]
      obtain ⟨hssc, _, _, _, _⟩ :=
        step_fields c (progressIf c.progress s .progressTick)
      have htsc : (_show_new_log_step c (progressIf c.progress s .progressTick)).sc = j + 1 := by
        rw [hssc, progressIf_sc, hsc]
      obtain ⟨s2, hts, hsc2⟩ :=
        task_status_no_end c (_show_new_log_step c (progressIf c.progress s .progressTick)) hend
      rw [htsc] at hts hsc2
      rw [hts]
      obtain ⟨s', hrun, hsc', hst'⟩ := ih (j + 1) {s2 with status := c.task.statusSeq (j + 1)}
        hsc2 rfl k hlt (fun i h1 h2 => hmem i (by omega) h2) hterm (by omega)
      exact ⟨s', hrun, hsc', hst'⟩

/-! Facts about `initSession`. -/

@[simp] lemma initSession_task (task : Task) (opts : Options) (time : ℕ → Time) :
    (initSession task opts time).1.task = task := rfl

@[simp] lemma initSession_poll (task : Task) (opts : Options) (time : ℕ → Time) :
    (initSession task opts time).1.poll = opts.poll := rfl

@[simp] lemma initSession_sc (task : Task) (opts : Options) (time : ℕ → Time) :
    (initSession task opts time).2.sc = 1 := rfl

@[simp] lemma initSession_lc (task : Task) (opts : Options) (time : ℕ → Time) :
    (initSession task opts time).2.lc = 0 := rfl

@[simp] lemma initSession_skip (task : Task) (opts : Options) (time : ℕ → Time) :
    (initSession task opts time).2.skip = 0 := rfl

@[simp] lemma initSession_status (task : Task) (opts : Options) (time : ℕ → Time) :
    (initSession task opts time).2.status = task.statusSeq 0 := rfl

@[simp] lemma initSession_out (task : Task) (opts : Options) (time : ℕ → Time) :
    (initSession task opts time).2.out = [] := rfl

lemma initSession_show_log (task : Task) (opts : Options) (time : ℕ → Time) :
    (initSession task opts time).1.show_log = (opts.show_log && task.hasLogSeq 0) := by
  cases h : opts.show_log <;> simp [initSession, h]

lemma initSession_progress (task : Task) (opts : Options) (time : ℕ → Time) :
    (initSession task opts time).1.progress
      = (opts.progress && !(opts.show_log && task.hasLogSeq 0)) := by
  cases h : opts.show_log <;> simp [initSession, h]

lemma initSession_hc (task : Task) (opts : Options) (time : ℕ → Time) :
    (initSession task opts time).2.hc = if opts.show_log then 1 else 0 := by
  cases h : opts.show_log <;> simp [initSession, h]

lemma initSession_time_end (task : Task) (opts : Options) (time : ℕ → Time)
    (h : opts.timeout = none) : (initSession task opts time).1.time_end = none := by
  simp [initSession, h]

/-! Wrapper-level lemmas. -/

/-- The waiting phase never touches the log state. -/
lemma wait_to_start_pres (c : Sess) (fuel : ℕ) (s : St) (r : Except TimeoutError Unit)
    (s' : St) (h : _wait_to_start c fuel s = some (r, s')) :
    s'.lc = s.lc ∧ s'.skip = s.skip ∧ outLogLines s'.out = outLogLines s.out := by
  unfold _wait_to_start at h
  rcases hR : runW c fuel (progressIf (c.show_log || c.progress) s (.progressStart "Waiting"))
    with _ | ⟨r1, s1⟩
  · rw [hR] at h
    exact absurd h (by simp)
  · rw [hR] at h
    simp only [Option.some.injEq, Prod.mk.injEq] at h
    obtain ⟨_, rfl⟩ := h
    obtain ⟨h1, h2, h3⟩ := runW_pres c fuel _ r1 s1 hR
    refine ⟨by simpa using h1, by simpa using h2, ?_⟩
    rw [outLogLines_progressIf _ _ (Out.progressEnd "OK") rfl, h3,
      outLogLines_progressIf _ _ (Out.progressStart "Waiting") rfl]

/-- The running phase (including the final flush) preserves the
log-tailing invariant — on the normal and on the raising path. -/
lemma wait_to_finish_logInv (c : Sess) (L : ℕ → List String)
    (hlog : ∀ i, c.task.logSeq i = some (L i))
    (hmono : ∀ i, ListExt (L i) (L (i + 1))) (fuel : ℕ) (s : St)
    (r : Except TimeoutError Unit) (s' : St)
    (h : _wait_to_finish c fuel s = some (r, s')) (hinv : LogInv L s) : LogInv L s' := by
  unfold _wait_to_finish at h
  have hinv0 : LogInv L (progressIf c.progress s (.progressStart "Running")) :=
    logInv_transport (by simp) (by simp)
      (outLogLines_progressIf _ _ (Out.progressStart "Running") rfl) hinv
  rcases hR : runR c fuel (progressIf c.progress s (.progressStart "Running"))
    with _ | ⟨r1, s1⟩
  · rw [hR] at h
    exact absurd h (by simp)
  · rw [hR] at h
    have hinv1 : LogInv L s1 := runR_logInv c L hlog hmono fuel _ r1 s1 hR hinv0
    have hinv2 : LogInv L (progressIf c.progress s1 (.progressEnd "OK")) :=
      logInv_transport (by simp) (by simp)
        (outLogLines_progressIf _ _ (Out.progressEnd "OK") rfl) hinv1
    cases r1 with
    | error e =>
      simp only [Option.some.injEq, Prod.mk.injEq] at h
      obtain ⟨_, rfl⟩ := h
      exact hinv2
    | ok u =>
      simp only [Option.some.injEq, Prod.mk.injEq] at h
      obtain ⟨_, rfl⟩ := h
      exact (step_logInv c L hlog hmono _ hinv2).1

/-- On the normal path with log display active, after the running phase
and its final flush the emitted log lines are exactly the last log value
fetched. -/
lemma wait_to_finish_flush (c : Sess) (L : ℕ → List String)
    (hlog : ∀ i, c.task.logSeq i = some (L i))
    (hmono : ∀ i, ListExt (L i) (L (i + 1))) (hshow : c.show_log = true) (fuel : ℕ)
    (s : St) (s' : St) (h : _wait_to_finish c fuel s = some (.ok (), s'))
    (hinv : LogInv L s) :
    outLogLines s'.out = L (s'.lc - 1) ∧ 1 ≤ s'.lc := by
  unfold _wait_to_finish at h
  have hinv0 : LogInv L (progressIf c.progress s (.progressStart "Running")) :=
    logInv_transport (by simp) (by simp)
      (outLogLines_progressIf _ _ (Out.progressStart "Running") rfl) hinv
  rcases hR : runR c fuel (progressIf c.progress s (.progressStart "Running"))
    with _ | ⟨r1, s1⟩
  · rw [hR] at h
    exact absurd h (by simp)
  · rw [hR] at h
    have hinv1 : LogInv L s1 := runR_logInv c L hlog hmono fuel _ r1 s1 hR hinv0
    have hinv2 : LogInv L (progressIf c.progress s1 (.progressEnd "OK")) :=
      logInv_transport (by simp) (by simp)
        (outLogLines_progressIf _ _ (Out.progressEnd "OK") rfl) hinv1
    cases r1 with
    | error e => exact absurd h (by simp)
    | ok u =>
      simp only [Option.some.injEq, Prod.mk.injEq] at h
      obtain ⟨_, rfl⟩ := h
      obtain ⟨hfull, hlc⟩ := (step_logInv c L hlog hmono _ hinv2).2 hshow
      rw [hfull, hlc]
      exact ⟨rfl, by omega⟩

lemma listExt_take_succ (l : List String) (i : ℕ) : ListExt (l.take i) (l.take (i + 1)) := by
  induction l generalizing i with
  | nil => exact ⟨[], by simp⟩
  | cons a tl ih =>
    cases i with
    | zero => exact ⟨[a], by simp⟩
    | succ m =>
      obtain ⟨u, hu⟩ := ih m
      exact ⟨u, by simp [hu]⟩

lemma exL_mono (i : ℕ) : ListExt (exL i) (exL (i + 1)) := listExt_take_succ _ (i + 1)

/-- The whole `wait` preserves the log-tailing invariant, on the normal
and on the raising path. -/
lemma wait_logInv (c : Sess) (L : ℕ → List String)
    (hlog : ∀ i, c.task.logSeq i = some (L i))
    (hmono : ∀ i, ListExt (L i) (L (i + 1))) (fuel : ℕ) (s : St)
    (r : Except TimeoutError Result) (s' : St)
    (h : wait c fuel s = some (r, s')) (hinv : LogInv L s) : LogInv L s' := by
  unfold wait at h
  rcases hA : _wait_to_start c fuel s with _ | ⟨rA, sA⟩
  · rw [hA] at h
    exact absurd h (by simp)
  · rw [hA] at h
    have hinvA : LogInv L sA := by
      obtain ⟨h1, h2, h3⟩ := wait_to_start_pres c fuel s rA sA hA
      exact logInv_transport h2 h1 h3 hinv
    cases rA with
    | error e =>
      simp only [Option.some.injEq, Prod.mk.injEq] at h
      obtain ⟨_, rfl⟩ := h
      exact hinvA
    | ok u =>
      simp only [] at h
      rcases hB : _wait_to_finish c fuel sA with _ | ⟨rB, sB⟩
      · rw [hB] at h
        exact absurd h (by simp)
      · rw [hB] at h
        have hinvB : LogInv L sB := wait_to_finish_logInv c L hlog hmono fuel sA rB sB hB hinvA
        cases rB with
        | error e =>
          simp only [Option.some.injEq, Prod.mk.injEq] at h
          obtain ⟨_, rfl⟩ := h
          exact hinvB
        | ok u2 =>
          simp only [Option.some.injEq, Prod.mk.injEq] at h
          obtain ⟨_, rfl⟩ := h
          exact logInv_transport rfl rfl rfl hinvB

/-- A successful `wait` with log display active ends with the emitted log
lines equal to the last log value fetched. -/
lemma wait_flush (c : Sess) (L : ℕ → List String)
    (hlog : ∀ i, c.task.logSeq i = some (L i))
    (hmono : ∀ i, ListExt (L i) (L (i + 1))) (hshow : c.show_log = true) (fuel : ℕ)
    (s : St) (r : Result) (s' : St)
    (h : wait c fuel s = some (.ok r, s')) (hinv : LogInv L s) :
    outLogLines s'.out = L (s'.lc - 1) ∧ 1 ≤ s'.lc := by
  unfold wait at h
  rcases hA : _wait_to_start c fuel s with _ | ⟨rA, sA⟩
  · rw [hA] at h
    exact absurd h (by simp)
  · rw [hA] at h
    have hinvA : LogInv L sA := by
      obtain ⟨h1, h2, h3⟩ := wait_to_start_pres c fuel s rA sA hA
      exact logInv_transport h2 h1 h3 hinv
    cases rA with
    | error e =>
      simp only [Option.some.injEq, Prod.mk.injEq] at h
      obtain ⟨he, _⟩ := h
      exact absurd he (by simp)
    | ok u =>
      simp only [] at h
      rcases hB : _wait_to_finish c fuel sA with _ | ⟨rB, sB⟩
      · rw [hB] at h
        exact absurd h (by simp)
      · rw [hB] at h
        cases rB with
        | error e =>
          simp only [Option.some.injEq, Prod.mk.injEq] at h
          obtain ⟨he, _⟩ := h
          exact absurd he (by simp)
        | ok u2 =>
          simp only [Option.some.injEq, Prod.mk.injEq] at h
          obtain ⟨_, rfl⟩ := h
          cases u2
          exact wait_to_finish_flush c L hlog hmono hshow fuel sA sB hB hinvA

/-- With the effective progress flag off, the whole running phase emits no
progress events. -/
lemma wait_to_finish_progFree (c : Sess) (hp : c.progress = false) (fuel : ℕ) (s : St)
    (r : Except TimeoutError Unit) (s' : St)
    (h : _wait_to_finish c fuel s = some (r, s')) :
    ∃ ex, s'.out = s.out ++ ex ∧ ∀ o ∈ ex, isProgress o = false := by
  unfold _wait_to_finish at h
  simp only [hp, progressIf_false] at h
  rcases hR : runR c fuel s with _ | ⟨r1, s1⟩
  · rw [hR] at h
    exact absurd h (by simp)
  · rw [hR] at h
    obtain ⟨ex1, hout1, hex1⟩ := runR_progFree c hp fuel s r1 s1 hR
    cases r1 with
    | error e =>
      simp only [Option.some.injEq, Prod.mk.injEq] at h
      obtain ⟨_, rfl⟩ := h
      exact ⟨ex1, hout1, hex1⟩
    | ok u =>
      simp only [Option.some.injEq, Prod.mk.injEq] at h
      obtain ⟨_, rfl⟩ := h
      obtain ⟨_, _, _, _, ex2, hout2, hex2⟩ := step_fields c s1
      refine ⟨ex1 ++ ex2, ?_, progFree_append hex1 hex2⟩
      rw [hout2, hout1, List.append_assoc]

/-- For a phase-ordered status sequence (waiting statuses up to `k`,
running statuses up to `n`, then a first status outside both sets at `n`),
`wait` succeeds after exactly `n + 1` status calls, holding status `n`. -/
lemma wait_exit (c : Sess) (hend : c.time_end = none) (k n : ℕ) (hkn : k ≤ n)
    (hW : ∀ i, i < k → c.task.statusSeq i ∈ c.task.status_waiting)
    (hR : ∀ i, k ≤ i → i < n → c.task.statusSeq i ∈ c.task.status_running)
    (hkW : c.task.statusSeq k ∉ c.task.status_waiting)
    (hTR : c.task.statusSeq n ∉ c.task.status_running)
    (fuel : ℕ) (hfuel : n < fuel) (s : St) (hsc : s.sc = 1)
    (hst : s.status = c.task.statusSeq 0) :
    ∃ r s', wait c fuel s = some (.ok r, s') ∧ r.status = c.task.statusSeq n ∧
      s'.sc = n + 1 := by
  obtain ⟨s1, hrunW, hsc1, hst1⟩ := runW_exit c hend fuel 0
    (progressIf (c.show_log || c.progress) s (.progressStart "Waiting"))
    (by rw [progressIf_sc, hsc]) (by rw [progressIf_status, hst]) k (by omega)
    (fun i _ h2 => hW i h2) hkW (by omega)
  have hA : _wait_to_start c fuel s =
      some (.ok (), progressIf (c.show_log || c.progress) s1 (.progressEnd "OK")) := by
    unfold _wait_to_start
    rw [hrunW]
  obtain ⟨s2, hrunR, hsc2, hst2⟩ := runR_exit c hend fuel k
    (progressIf c.progress (progressIf (c.show_log || c.progress) s1 (.progressEnd "OK"))
      (.progressStart "Running"))
    (by rw [progressIf_sc, progressIf_sc]; exact hsc1)
    (by rw [progressIf_status, progressIf_status]; exact hst1) n hkn hR hTR (by omega)
  have hB : _wait_to_finish c fuel (progressIf (c.show_log || c.progress) s1 (.progressEnd "OK")) =
      some (.ok (), _show_new_log_step c (progressIf c.progress s2 (.progressEnd "OK"))) := by
    unfold _wait_to_finish
    rw [hrunR]
  obtain ⟨hfsc, hfst, _, _, _⟩ := step_fields c (progressIf c.progress s2 (.progressEnd "OK"))
  have hwait : wait c fuel s =
      some (.ok ⟨(_show_new_log_step c (progressIf c.progress s2 (.progressEnd "OK"))).status,
          c.t0,
          c.time (_show_new_log_step c (progressIf c.progress s2 (.progressEnd "OK"))).tc⟩,
        {_show_new_log_step c (progressIf c.progress s2 (.progressEnd "OK")) with
          tc := (_show_new_log_step c (progressIf c.progress s2 (.progressEnd "OK"))).tc + 1}) := by
    unfold wait
    rw [hA]
    simp only []
    rw [hB]
  refine ⟨_, _, hwait, ?_, ?_⟩
  · show (_show_new_log_step c (progressIf c.progress s2 (.progressEnd "OK"))).status
      = c.task.statusSeq n
    rw [hfst, progressIf_status]
    exact hst2
  · show (_show_new_log_step c (progressIf c.progress s2 (.progressEnd "OK"))).sc = n + 1
    rw [hfsc, progressIf_sc]
    exact hsc2

/-! Claim theorems. -/

/-- C2: the log-tailing function `_show_new_log` emits nothing and returns
`skip` unchanged when the value is absent or its length is ≤ `skip`
(absence and emptiness are instances of the length test), and otherwise
emits exactly the lines from index `skip` to the end, in order, returning
the new length; in particular on the three concrete examples of the spec. -/
theorem C2_tail_log :
    (∀ sk : ℕ, _show_new_log sk none = (sk, [])) ∧
    (∀ (sk : ℕ) (l : List String), l.length ≤ sk → _show_new_log sk (some l) = (sk, [])) ∧
    (∀ (sk : ℕ) (l : List String), sk < l.length →
      _show_new_log sk (some l) = (l.length, l.drop sk)) ∧
    _show_new_log 0 none = (0, []) ∧
    _show_new_log 3 (some ["a", "b", "c"]) = (3, []) ∧
    _show_new_log 1 (some ["a", "b", "c"]) = (3, ["b", "c"]) := by
  refine ⟨fun _ => rfl, fun sk l h => ?_, fun sk l h => ?_, rfl, by decide, by decide⟩
  · show (if l.length ≤ sk then (sk, ([] : List String)) else (l.length, l.drop sk)) = (sk, [])
    rw [if_pos h]
  · show (if l.length ≤ sk then (sk, ([] : List String)) else (l.length, l.drop sk))
      = (l.length, l.drop sk)
    rw [if_neg (not_le.mpr h)]

/-- C2 witness: the general clauses of `C2_tail_log` evaluated at a
concrete input. -/
theorem C2_tail_log_witness :
    _show_new_log 3 (some ["x", "y", "z"]) = (3, []) ∧
      _show_new_log 1 (some ["x", "y", "z"]) = (3, ["y", "z"]) :=
  ⟨C2_tail_log.2.1 3 ["x", "y", "z"] (by norm_num),
   C2_tail_log.2.2.1 1 ["x", "y", "z"] (by norm_num)⟩

/-- C3: `_delay` on its first call (no previous timestamp) returns the
current time without sleeping; on later calls with the deadline not yet
passed it sleeps exactly `poll - (now - prev)` seconds when that quantity
is positive and does not sleep otherwise. -/
theorem C3_pacing :
    (∀ (poll : Time) (tEnd : Option Time) (now : Time),
      _delay none poll tEnd now = .ok (now, none)) ∧
    (∀ (p poll : Time) (tEnd : Option Time) (now : Time),
      (∀ e, tEnd = some e → now ≤ e) → 0 < poll - (now - p) →
      _delay (some p) poll tEnd now = .ok (now, some (poll - (now - p)))) ∧
    (∀ (p poll : Time) (tEnd : Option Time) (now : Time),
      (∀ e, tEnd = some e → now ≤ e) → poll - (now - p) ≤ 0 →
      _delay (some p) poll tEnd now = .ok (now, none)) := by
  refine ⟨fun _ _ _ => rfl, fun p poll tEnd now he hw => ?_, fun p poll tEnd now he hw => ?_⟩
  · exact delay_sleep (timeExceeded_eq_false he) hw
  · exact delay_no_sleep (timeExceeded_eq_false he) hw

/-- C3 witness: with `poll = 10` and a call 7 seconds after the previous
one, `_delay` sleeps exactly 3 seconds. -/
theorem C3_pacing_witness :
    _delay (some 0) 10 none 7 = .ok (7, some 3) := by
  have h := C3_pacing.2.1 0 10 none 7 (fun e he => by cases he) (by norm_num)
  have he : (10 : Time) - (7 - 0) = 3 := by norm_num
  rw [he] at h
  exact h

/-- C4: on a pacing call after the first, with the current time past the
deadline, `_delay` raises `TimeoutError` before any sleep (the error
result carries no sleep effect); at the wait level the error propagates
directly out of `taskwait` with no `Result` produced, as the concrete
timed-out run shows. -/
theorem C4_timeout_raised :
    (∀ (p poll e now : Time), e < now → _delay (some p) poll (some e) now = .error ⟨⟩) ∧
      resultOf (taskwait toTask toOpts toTime 10) = some (.error ⟨⟩) := by
  constructor
  · intro p poll e now h
    exact delay_timeout (by simp [timeExceeded, h])
  · rfl

/-- C4 witness: with `prev = now - 100` and `end = now - 1` (here
`now = 100`), the pacing call raises immediately. -/
theorem C4_timeout_raised_witness :
    _delay (some 0) 0 (some 99) 100 = .error ⟨⟩ :=
  C4_timeout_raised.1 0 0 99 100 (by norm_num)

/-- C6 counterexample: on a paced call that sleeps (`prev = 0`,
`poll = 10`, `now = 7`, sleeping 3 seconds), the recorded last-poll time
is `7`, the time sampled before the sleep — not `7 + 3 = 10`, the time
after the sleep completes, as the claim states. -/
theorem C6_last_poll_time_cex :
    _delay (some 0) 10 none 7 = .ok (7, some 3) ∧ (7 : Time) ≠ 7 + 3 := by
  constructor
  · have he : (some (3 : Time)) = some (10 - (7 - 0) : Time) := by norm_num
    rw [he]
    exact delay_sleep rfl (by norm_num)
  · norm_num

/-- C6 amended: on every paced call after the first that does not raise,
the recorded last-poll time is the time sampled at the start of the call,
before any sleep; the call completes (at `now` plus the sleep duration) no
earlier than `prev + poll`, with equality when a sleep occurs — but the
recorded time is not the post-sleep time. -/
theorem C6_last_poll_time_amended (p poll : Time) (tEnd : Option Time) (now ret : Time)
    (slp : Option Time) (h : _delay (some p) poll tEnd now = .ok (ret, slp)) :
    ret = now ∧ p + poll ≤ now + slp.getD 0 ∧ (∀ d, slp = some d → now + d = p + poll) := by
  by_cases hte : timeExceeded now tEnd = true
  · rw [delay_timeout hte] at h
    cases h
  · have hte2 : timeExceeded now tEnd = false := by
      simpa using hte
    by_cases hw : 0 < poll - (now - p)
    · rw [delay_sleep hte2 hw] at h
      simp only [Except.ok.injEq, Prod.mk.injEq] at h
      obtain ⟨rfl, rfl⟩ := h
      refine ⟨rfl, ?_, ?_⟩
      · simp only [Option.getD_some]
        linarith
      · intro d hd
        simp only [Option.some.injEq] at hd
        subst hd
        ring
    · rw [delay_no_sleep hte2 (by linarith)] at h
      simp only [Except.ok.injEq, Prod.mk.injEq] at h
      obtain ⟨rfl, rfl⟩ := h
      refine ⟨rfl, ?_, ?_⟩
      · simp only [Option.getD_none]
        linarith
      · intro d hd
        cases hd

/-- C6 amended witness: the amended statement at the concrete sleeping
call `prev = 0`, `poll = 10`, `now = 7`. -/
theorem C6_last_poll_time_amended_witness :
    (7 : Time) = 7 ∧ (0 : Time) + 10 ≤ 7 + (Option.getD (some (3 : Time)) 0) ∧
      (∀ d, (some (3 : Time)) = some d → (7 : Time) + d = 0 + 10) := by
  have h : _delay (some 0) 10 none 7 = .ok (7, some 3) := by
    have he : (some (3 : Time)) = some (10 - (7 - 0) : Time) := by norm_num
    rw [he]
    exact delay_sleep rfl (by norm_num)
  exact C6_last_poll_time_amended 0 10 none 7 7 (some 3) h

/-- C9 counterexample: with the `show_log` option false, `__init__` never
calls `task.has_log()` (the python `and` short-circuits), so it is not
queried exactly once. -/
theorem C9_session_init_cex :
    (initSession exTask { show_log := false } exTime).2.hc = 0 ∧
      ¬(initSession exTask { show_log := false } exTime).2.hc = 1 := by
  exact ⟨rfl, by decide⟩

/-- C9 amended: at session creation `has_log()` is queried at most once —
exactly once when the `show_log` option is true and never when it is
false; the effective log-display flag equals the `show_log` option ANDed
with `has_log()`, the effective progress flag equals the `progress` option
ANDed with the negation of the effective log-display flag, and the
defaults are `show_log=true`, `progress=true`, `poll=1`, `timeout=none`. -/
theorem C9_session_init_amended (task : Task) (opts : Options) (time : ℕ → Time) :
    (initSession task opts time).2.hc = (if opts.show_log then 1 else 0) ∧
    (opts.show_log = true → (initSession task opts time).2.hc = 1) ∧
    (initSession task opts time).1.show_log = (opts.show_log && task.hasLogSeq 0) ∧
    (initSession task opts time).1.progress
      = (opts.progress && !(opts.show_log && task.hasLogSeq 0)) ∧
    ({} : Options).show_log = true ∧ ({} : Options).progress = true ∧
    ({} : Options).poll = 1 ∧ ({} : Options).timeout = none := by
  refine ⟨initSession_hc task opts time, ?_, initSession_show_log task opts time,
    initSession_progress task opts time, rfl, rfl, rfl, rfl⟩
  intro h
  rw [initSession_hc, h]
  rfl

/-- C9 amended witness: with the default options (`show_log = true`),
`has_log()` is queried exactly once. -/
theorem C9_session_init_amended_witness :
    (initSession exTask {} exTime).2.hc = 1 :=
  (C9_session_init_amended exTask {} exTime).2.1 rfl

/-- C10: the first pacing call (previous timestamp absent) never raises,
even when the current time is already past the deadline; consequently a
wait whose deadline has already expired still issues one paced status
query (the second status call overall) before failing, as the concrete
timed-out run shows (`sc = 2` at the error). -/
theorem C10_first_call_never_times_out :
    (∀ (poll e now : Time), e < now → _delay none poll (some e) now = .ok (now, none)) ∧
      resultOf (taskwait toTask toOpts toTime 10) = some (.error ⟨⟩) ∧
      (stateOf (taskwait toTask toOpts toTime 10)).map St.sc = some 2 := by
  exact ⟨fun _ _ _ _ => rfl, rfl, rfl⟩

/-- C10 witness: a first pacing call with the deadline already passed
still succeeds without sleeping. -/
theorem C10_first_call_never_times_out_witness :
    _delay none 0 (some 0) 5 = .ok (5, none) :=
  C10_first_call_never_times_out.1 0 0 5 (by norm_num)

/-- C1: for a task whose `log()` calls return a monotonically-growing
ordered sequence (each call's value extends the previous one), a complete
wait with log display enabled emits — across the whole wait, including the
final post-loop flush — exactly the lines of the last log value fetched,
each exactly once and in original order: no line duplicated, none
dropped. -/
theorem C1_log_exactly_once (task : Task) (opts : Options) (time : ℕ → Time) (fuel : ℕ)
    (L : ℕ → List String) (hlog : ∀ i, task.logSeq i = some (L i))
    (hmono : ∀ i, ListExt (L i) (L (i + 1)))
    (hshow : (initSession task opts time).1.show_log = true)
    (r : Result) (s' : St)
    (hrun : taskwait task opts time fuel = some (.ok r, s')) :
    outLogLines s'.out = L (s'.lc - 1) ∧ 1 ≤ s'.lc := by
  have h0 : LogInv L (initSession task opts time).2 := by
    refine ⟨by simp, ?_⟩
    rw [initSession_out]
    exact listExt_nil _
  simp only [taskwait] at hrun
  exact wait_flush (initSession task opts time).1 L hlog hmono hshow fuel
    (initSession task opts time).2 r s' hrun h0

/-- C1 witness: the example run (statuses created, submitted, running,
finishing, done; one new log line per `log()` call) emits exactly the
three lines of the last fetched log value. -/
theorem C1_log_exactly_once_witness :
    ∃ r s', taskwait exTask exOpts exTime 10 = some (.ok r, s') ∧
      outLogLines s'.out = exL (s'.lc - 1) ∧ 1 ≤ s'.lc := by
  have h : taskwait exTask exOpts exTime 10 = some (.ok ⟨"done", 0, 0⟩, exFinalSt) := rfl
  exact ⟨_, _, h, C1_log_exactly_once exTask exOpts exTime 10 exL (fun i => rfl)
    exL_mono rfl _ _ h⟩

/-- C5 counterexample: with disjoint status sets and the status sequence
running, created, done, …, the wait returns `Result.status = "created"`,
which lies in `status_waiting` — so the final status is not a status
outside both sets, and the wait terminated without ever observing one. -/
theorem C5_first_terminal_cex :
    resultOf (taskwait regTask exOpts exTime 10) = some (.ok ⟨"created", 0, 0⟩) ∧
      regTask.status_waiting.inter regTask.status_running = [] ∧
      "created" ∈ regTask.status_waiting ∧
      "created" ∉ regTask.status_running := by
  exact ⟨rfl, by decide, by decide, by decide⟩

/-- C5 amended: for every phase-ordered polling sequence — statuses before
`k` in `status_waiting`, statuses from `k` up to `n` in `status_running`,
and status `n` the first outside both (disjoint) sets — the wait
terminates the instant status `n` is observed, with exactly `n + 1` status
calls in total and `Result.status` equal to that first terminal status. -/
theorem C5_first_terminal_amended (task : Task) (opts : Options) (time : ℕ → Time)
    (fuel k n : ℕ) (hto : opts.timeout = none)
    (hdisj : ∀ x, x ∈ task.status_waiting → x ∉ task.status_running)
    (hkn : k ≤ n)
    (hW : ∀ i, i < k → task.statusSeq i ∈ task.status_waiting)
    (hRm : ∀ i, k ≤ i → i < n → task.statusSeq i ∈ task.status_running)
    (hTW : task.statusSeq n ∉ task.status_waiting)
    (hTR : task.statusSeq n ∉ task.status_running)
    (hfuel : n < fuel) :
    ∃ r s', taskwait task opts time fuel = some (.ok r, s') ∧
      r.status = task.statusSeq n ∧ s'.sc = n + 1 := by
  have hend : (initSession task opts time).1.time_end = none :=
    initSession_time_end task opts time hto
  have hkW : task.statusSeq k ∉ task.status_waiting := by
    rcases eq_or_lt_of_le hkn with rfl | hlt
    · exact hTW
    · intro hmem
      exact hdisj _ hmem (hRm k le_rfl hlt)
  simp only [taskwait]
  exact wait_exit (initSession task opts time).1 hend k n hkn hW hRm hkW hTR fuel hfuel
    (initSession task opts time).2 (initSession_sc task opts time)
    (initSession_status task opts time)

/-- C5 amended witness: the phase-ordered example run terminates at the
fifth status call with `Result.status = "done"`. -/
theorem C5_first_terminal_amended_witness :
    ∃ r s', taskwait exTask exOpts exTime 10 = some (.ok r, s') ∧
      r.status = "done" ∧ s'.sc = 5 := by
  obtain ⟨r, s', h1, h2, h3⟩ := C5_first_terminal_amended exTask exOpts exTime 10 2 4 rfl
    (by intro x hx; fin_cases hx <;> decide)
    (by omega)
    (by intro i hi; interval_cases i <;> decide)
    (by intro i hi1 hi2; interval_cases i <;> decide)
    (by decide) (by decide) (by omega)
  exact ⟨r, s', h1, h2, h3⟩

/-- C7 counterexample: in the example run with log display active
(`show_log` effective because the task has a log), the waiting-phase
progress label "Waiting" is printed — the progress indicator is not
suppressed in every phase. -/
theorem C7_progress_suppression_cex :
    (initSession exTask exOpts exTime).1.show_log = true ∧
      stateOf (taskwait exTask exOpts exTime 10) = some exFinalSt ∧
      Out.progressStart "Waiting" ∈ exFinalSt.out := by
  exact ⟨rfl, rfl, by decide⟩

/-- C7 amended: whenever log display is active, the effective progress
flag is false and the running phase — the `_wait_to_finish` call,
including its final flush — emits no progress events at all (no "Running"
start label, no ticks, no completion label); the waiting phase however
still displays its indicator whenever either display option is on. -/
theorem C7_progress_suppression_amended (task : Task) (opts : Options) (time : ℕ → Time)
    (hshow : (initSession task opts time).1.show_log = true) (fuel : ℕ) (s : St)
    (r : Except TimeoutError Unit) (s' : St)
    (h : _wait_to_finish (initSession task opts time).1 fuel s = some (r, s')) :
    (initSession task opts time).1.progress = false ∧
      ∃ ex, s'.out = s.out ++ ex ∧ ∀ o ∈ ex, isProgress o = false := by
  have hp : (initSession task opts time).1.progress = false := by
    rw [initSession_show_log] at hshow
    rw [initSession_progress, hshow]
    simp
  exact ⟨hp, wait_to_finish_progFree _ hp fuel s r s' h⟩

/-- C7 amended witness: the running phase of the example task, started
from its initial state, emits only a log chunk — no progress events. -/
theorem C7_progress_suppression_amended_witness :
    (initSession exTask exOpts exTime).1.progress = false ∧
      ∃ ex, (⟨1, 1, 1, 1, 1, none, "created", [Out.logChunk ["Log entry 1"]]⟩ : St).out =
        (initSession exTask exOpts exTime).2.out ++ ex ∧ ∀ o ∈ ex, isProgress o = false := by
  have h : _wait_to_finish (initSession exTask exOpts exTime).1 5
      (initSession exTask exOpts exTime).2 =
      some (.ok (), ⟨1, 1, 1, 1, 1, none, "created", [Out.logChunk ["Log entry 1"]]⟩) := rfl
  exact C7_progress_suppression_amended exTask exOpts exTime rfl 5 _ _ _ h

/-- C8: the log cursor `skip` never decreases across a log-tail step; and
provided the log is append-only, a `skip` within the current log length
stays within it (both for the value just fetched and for its successor),
so that over a whole wait session the final `skip` is at most the current
log length. -/
theorem C8_skip_monotone :
    (∀ (sk : ℕ) (v : Option (List String)), sk ≤ (_show_new_log sk v).1) ∧
    (∀ (sk : ℕ) (l l2 : List String), ListExt l l2 → sk ≤ l.length →
      (_show_new_log sk (some l)).1 ≤ l.length ∧ (_show_new_log sk (some l)).1 ≤ l2.length) ∧
    (∀ (task : Task) (opts : Options) (time : ℕ → Time) (fuel : ℕ) (L : ℕ → List String),
      (∀ i, task.logSeq i = some (L i)) → (∀ i, ListExt (L i) (L (i + 1))) →
      ∀ r s', taskwait task opts time fuel = some (r, s') →
        s'.skip ≤ (L s'.lc).length) := by
  refine ⟨?_, ?_, ?_⟩
  · intro sk v
    match v with
    | none => exact le_rfl
    | some l =>
      show sk ≤ (if l.length ≤ sk then (sk, ([] : List String)) else (l.length, l.drop sk)).1
      by_cases h : l.length ≤ sk
      · rw [if_pos h]
      · rw [if_neg h]
        exact le_of_not_le h
  · intro sk l l2 hext hlen
    have hll : l.length ≤ l2.length := hext.length_le
    constructor
    · show (if l.length ≤ sk then (sk, ([] : List String)) else (l.length, l.drop sk)).1
        ≤ l.length
      by_cases h : l.length ≤ sk
      · rw [if_pos h]
        exact hlen
      · rw [if_neg h]
    · show (if l.length ≤ sk then (sk, ([] : List String)) else (l.length, l.drop sk)).1
        ≤ l2.length
      by_cases h : l.length ≤ sk
      · rw [if_pos h]
        omega
      · rw [if_neg h]
        exact hll
  · intro task opts time fuel L hlog hmono r s' hrun
    have h0 : LogInv L (initSession task opts time).2 := by
      refine ⟨by simp, ?_⟩
      rw [initSession_out]
      exact listExt_nil _
    simp only [taskwait] at hrun
    obtain ⟨hskip, hext⟩ :=
      wait_logInv (initSession task opts time).1 L hlog hmono fuel _ r s' hrun h0
    rw [hskip]
    exact hext.length_le

/-- C8 witness: the clauses of `C8_skip_monotone` at concrete inputs,
including the example run's final state. -/
theorem C8_skip_monotone_witness :
    (1 : ℕ) ≤ (_show_new_log 1 (some ["a", "b"])).1 ∧
    (_show_new_log 1 (some ["a", "b"])).1 ≤ 2 ∧
    (_show_new_log 1 (some ["a", "b"])).1 ≤ 3 ∧
    exFinalSt.skip ≤ (exL exFinalSt.lc).length := by
  have h := C8_skip_monotone
  refine ⟨h.1 1 (some ["a", "b"]), ?_, ?_, ?_⟩
  · exact (h.2.1 1 ["a", "b"] ["a", "b", "c"] ⟨["c"], rfl⟩ (by norm_num)).1
  · exact (h.2.1 1 ["a", "b"] ["a", "b", "c"] ⟨["c"], rfl⟩ (by norm_num)).2
  · exact h.2.2 exTask exOpts exTime 10 exL (fun i => rfl) exL_mono
      (.ok ⟨"done", 0, 0⟩) exFinalSt rfl

end Taskwait
